import Mathlib

/-!
# Verification of the surplus-funds OSINT enrichment pipeline

Shallow embedding of the tabular enrichment pipeline of
`src/streamlit_app.py`: column standardization, APN-keyed left merge,
link synthesis, and confidence scoring, together with proofs of the
specification's claims about them.

Tables are modelled as an ordered column-name list plus rows of cells,
mirroring a pandas `DataFrame` (rows are position-aligned with the
column list).  Cells are strings, rationals (for the numeric score
column the pipeline itself writes), or the missing-value marker `null`
(pandas `NaN`, which the CSV loader produces for empty cells).  Machine
floats are modelled by `ℚ`; every score value reachable by the pipeline
is far from a rounding tie, so exact rational arithmetic agrees with the
source's float64 arithmetic at the stated precision.

String primitives are modelled over `List Char` with Python's
semantics restricted to ASCII (all inputs exercised by the claims are
ASCII): `str.strip`, `str.lower`, `str.replace`, `urllib`'s
`quote_plus`, and the regex `\W+` deletion used to build the join key.
-/

set_option autoImplicit false

namespace SurplusOSINT

/-- A cell of a table: a string, a number (only produced by the pipeline
itself for `confidence_score`), or the missing-value marker (pandas
`NaN`). -/
inductive Cell where
  | str (s : String)
  | num (q : ℚ)
  | null
  deriving DecidableEq, Repr

/-- A row is the list of cells, position-aligned with the table's
column list. -/
abbrev Row := List Cell

/-- A table: ordered column names plus rows, as in a pandas
`DataFrame`.  Duplicate column labels are representable (pandas allows
them); cell access resolves to the first occurrence. -/
structure Table where
  cols : List String
  rows : List Row
  deriving DecidableEq, Repr

/-- Well-formedness: every row has exactly one cell per column.  This
always holds of a pandas `DataFrame`. -/
def WF (t : Table) : Prop := ∀ r ∈ t.rows, r.length = t.cols.length

instance (t : Table) : Decidable (WF t) := by
  unfold WF; infer_instance

/-! ## Python string primitives (ASCII model) -/

/-- Characters Python's `str.strip()` removes (ASCII whitespace). -/
def pyIsSpace (c : Char) : Bool :=
  c = ' ' || c = '\t' || c = '\n' || c = '\r' || c = '\x0b' || c = '\x0c'

/-- Python `s.strip()`. -/
def pyStrip (s : String) : String :=
  ⟨((s.data.dropWhile pyIsSpace).reverse.dropWhile pyIsSpace).reverse⟩

/-- ASCII lower-casing of one character, as Python's `str.lower` acts
on ASCII. -/
def pyCharLower (c : Char) : Char :=
  if 'A' ≤ c ∧ c ≤ 'Z' then Char.ofNat (c.toNat + 32) else c

/-- Python `s.lower()` (ASCII model). -/
def pyLower (s : String) : String := ⟨s.data.map pyCharLower⟩

/-- Python `s.replace(ch, "")` for a single-character pattern: delete
every occurrence of `ch`. -/
def pyDeleteChar (s : String) (ch : Char) : String :=
  ⟨s.data.filter (fun c => c ≠ ch)⟩

/-- Python `s.replace(a, b)` for single-character pattern and
replacement. -/
def pySubstChar (s : String) (a b : Char) : String :=
  ⟨s.data.map (fun c => if c = a then b else c)⟩

/-- Python `sep.join(parts)`. -/
def pyJoin (sep : String) : List String → String
  | [] => ""
  | [x] => x
  | x :: y :: xs => x ++ sep ++ pyJoin sep (y :: xs)

/-- A regex word character (`\w`), ASCII model: alphanumeric or
underscore. -/
def isWordChar (c : Char) : Bool := c.isAlphanum || c = '_'

/-- `re.sub(r"\W+", "", s)`: delete every non-word character. -/
def stripNonWord (s : String) : String := ⟨s.data.filter isWordChar⟩

/-- Pandas `.astype(str)` on a cell.  A missing value (`NaN`) is
rendered `"nan"`.  Numeric cells only arise for the score column the
pipeline itself appends last, which no pipeline step re-reads, so their
exact rendering is immaterial. -/
def astypeStr : Cell → String
  | .str s => s
  | .num q => toString q
  | .null  => "nan"

/-- Python `str(x or "")` applied to a cell: a falsy value (empty
string, zero) gives `""`; `NaN` is truthy and `str(nan)` is `"nan"`. -/
def pyTruthyStr : Cell → String
  | .str s => s
  | .num q => if q = 0 then "" else toString q
  | .null  => "nan"

/-- Uppercase hexadecimal digit. -/
def hexDigitChar (n : ℕ) : Char :=
  if n < 10 then Char.ofNat ('0'.toNat + n) else Char.ofNat ('A'.toNat + (n - 10))

/-- UTF-8 encoding of one character as byte values. -/
def utf8Bytes (c : Char) : List ℕ :=
  let n := c.toNat
  if n < 0x80 then [n]
  else if n < 0x800 then [0xC0 + n / 0x40, 0x80 + n % 0x40]
  else if n < 0x10000 then
    [0xE0 + n / 0x1000, 0x80 + (n / 0x40) % 0x40, 0x80 + n % 0x40]
  else
    [0xF0 + n / 0x40000, 0x80 + (n / 0x1000) % 0x40, 0x80 + (n / 0x40) % 0x40, 0x80 + n % 0x40]

/-- Percent-encoding of one byte under `urllib.parse.quote_plus`:
ASCII alphanumerics and `_.-~` pass through, space becomes `+`,
everything else becomes `%XX`. -/
def quotePlusByte (n : ℕ) : List Char :=
  let c := Char.ofNat n
  if ('0' ≤ c ∧ c ≤ '9') ∨ ('A' ≤ c ∧ c ≤ 'Z') ∨ ('a' ≤ c ∧ c ≤ 'z') ∨
      c = '_' ∨ c = '.' ∨ c = '-' ∨ c = '~' then [c]
  else if c = ' ' then ['+']
  else ['%', hexDigitChar (n / 16), hexDigitChar (n % 16)]

/-- `urllib.parse.quote_plus`. -/
def quote_plus (s : String) : String :=
  ⟨(s.data.flatMap utf8Bytes).flatMap quotePlusByte⟩

/-! ## Table access -/

/-- Index of the first column with the given label. -/
def colIdx : List String → String → Option ℕ
  | [], _ => none
  | c :: cs, n => if c = n then some 0 else (colIdx cs n).map (· + 1)

/-- Cell of a row at a named column, with a default for a missing
column (models `row.get(name, default)`); a cell beyond the row's
length (never the case for a well-formed table) reads as missing. -/
def getCellD (cols : List String) (r : Row) (name : String) (d : Cell) : Cell :=
  match colIdx cols name with
  | some i => r.getD i .null
  | none => d

/-- Cell of a row at a named column (models `df[name]` row-wise, which
in pandas presupposes that the column exists). -/
def getCell (cols : List String) (r : Row) (name : String) : Cell :=
  getCellD cols r name .null

/-- `df[name] = vals`: overwrite the (first) existing column with that
label in place, or append a new column. -/
def setCol (t : Table) (name : String) (vals : List Cell) : Table :=
  match colIdx t.cols name with
  | some i => ⟨t.cols, t.rows.zipWith (fun r v => r.set i v) vals⟩
  | none => ⟨t.cols ++ [name], t.rows.zipWith (fun r v => r ++ [v]) vals⟩

/-- `df[name] = df.apply(f)`: set a column from a per-row function of
the current table. -/
def mapSetCol (t : Table) (name : String) (f : List String → Row → Cell) : Table :=
  setCol t name (t.rows.map (f t.cols))

/-- The positions of the columns that do not carry the given label. -/
def keepIdx (cols : List String) (name : String) : List ℕ :=
  (List.range cols.length).filter (fun i => cols.getD i "" ≠ name)

/-- Drop every column with the given label
(`df.drop(columns=[name], errors="ignore")`). -/
def dropCol (t : Table) (name : String) : Table :=
  ⟨(keepIdx t.cols name).map (fun i => t.cols.getD i ""),
    t.rows.map (fun r => (keepIdx t.cols name).map (fun i => r.getD i .null))⟩

/-- `pd.concat([df, df.apply(builder, axis=1)], axis=1)`: append a
fixed set of named columns whose values are computed per row from the
current table. -/
def concatCols (t : Table) (names : List String) (f : List String → Row → List Cell) : Table :=
  ⟨t.cols ++ names, t.rows.map (fun r => r ++ f t.cols r)⟩

/-! ## The pipeline's helpers (`src/streamlit_app.py` lines 65–123) -/

/-- `normalize_apn` (lines 65–69): `str(apn or "")`, strip, delete
space/hyphen/underscore/slash/period, lower-case.  The argument is
`Option String` so that the Python call `normalize_apn(None)` is
representable. -/
def normalize_apn (apn : Option String) : String :=
  pyLower ([' ', '-', '_', '/', '.'].foldl pyDeleteChar (pyStrip (apn.getD "")))

/-- `addr_query` (lines 71–74): trim the four parts under
`str(x or "")`, drop empties, join with single spaces. -/
def addr_query (address city state postal : Cell) : String :=
  pyJoin " " (([pyTruthyStr address, pyTruthyStr city, pyTruthyStr state,
      pyTruthyStr postal].map pyStrip).filter (fun p => p ≠ ""))

/-- Column names added by `build_gis_links`. -/
def gisNames : List String := ["GIS_Google", "GIS_Bing", "Appraiser_Search", "GIS_By_Address"]

/-- `build_gis_links` (lines 76–89). -/
def build_gis_links (cols : List String) (r : Row) : List Cell :=
  let county := pyTruthyStr (getCellD cols r "County Finder" (.str ""))
  let state := pyTruthyStr (getCellD cols r "State" (.str ""))
  let apn := pyTruthyStr (getCellD cols r "APN" (.str ""))
  let addrq := pyTruthyStr (getCellD cols r "addr_query" (.str ""))
  let google_q := pyStrip (county ++ " " ++ state ++ " GIS parcel " ++ apn)
  let appraiser_q := pyStrip (county ++ " " ++ state ++ " property appraiser " ++ apn)
  [.str ("https://www.google.com/search?q=" ++ quote_plus google_q),
   .str ("https://www.bing.com/search?q=" ++ quote_plus google_q),
   .str ("https://www.google.com/search?q=" ++ quote_plus appraiser_q),
   .str ("https://www.google.com/search?q=" ++ quote_plus (county ++ " " ++ state ++ " GIS " ++ addrq))]

/-- Column names added by `build_people_osint_links`. -/
def osintNames : List String :=
  ["OSINT_Google_Addr", "OSINT_Bing_Addr", "Whitepages", "FastPeopleSearch", "BeenVerified"]

/-- `build_people_osint_links` (lines 91–99). -/
def build_people_osint_links (cols : List String) (r : Row) : List Cell :=
  let addrq := pyTruthyStr (getCellD cols r "addr_query" (.str ""))
  [.str ("https://www.google.com/search?q=" ++ quote_plus addrq),
   .str ("https://www.bing.com/search?q=" ++ quote_plus addrq),
   .str ("https://www.whitepages.com/address/" ++ pySubstChar addrq ' ' '-'),
   .str ("https://www.fastpeoplesearch.com/address/" ++ pySubstChar addrq ' ' '-'),
   .str ("https://www.beenverified.com/people/search/?n=&citystatezip=" ++ quote_plus addrq)]

/-- Column names added by `build_social_links`. -/
def socialNames : List String := ["Facebook_Search", "LinkedIn_Search", "X_Search"]

/-- `build_social_links` (lines 101–107). -/
def build_social_links (cols : List String) (r : Row) : List Cell :=
  let addrq := pyTruthyStr (getCellD cols r "addr_query" (.str ""))
  [.str ("https://www.facebook.com/search/top/?q=" ++ quote_plus addrq),
   .str ("https://www.linkedin.com/search/results/all/?keywords=" ++ quote_plus addrq),
   .str ("https://x.com/search?q=" ++ quote_plus addrq ++ "&src=typed_query")]

/-! ## Merge (`merge_on_apn`, lines 109–123) -/

/-- The parcel-column aliases searched on the secondary table, in
source order (line 114, case-sensitive). -/
def parcelAliases : List String := ["APN", "Parcel", "Parcel Number", "parcel", "parcel number"]

/-- Lines 114–119: rename the first matching parcel alias to `APN`
(renaming is by label, so every column with that label is renamed); if
no alias is present — in particular `APN` itself is absent, since it
heads the alias list — append an all-empty `APN` column. -/
def renameParcel (pw : Table) : Table :=
  match parcelAliases.find? (fun c => pw.cols.contains c) with
  | some c => ⟨pw.cols.map (fun x => if x = c then "APN" else x), pw.rows⟩
  | none => ⟨pw.cols ++ ["APN"], pw.rows.map (fun r => r ++ [.str ""])⟩

/-- The join key of one `APN` cell:
`.astype(str).str.replace(r"\W+", "", regex=True).str.lower()`. -/
def apnKeyOfCell (c : Cell) : String := pyLower (stripNonWord (astypeStr c))

/-- The `APN_key` value of one row (lines 120–121). -/
def keyCellF (cols : List String) (r : Row) : Cell :=
  .str (apnKeyOfCell (getCell cols r "APN"))

/-- The `APN_key` column values of a table (lines 120–121). -/
def keyColVals (t : Table) : List Cell :=
  t.rows.map (keyCellF t.cols)

/-- The secondary rows matching one base row's key value. -/
def matchRows (df pw : Table) (key : String) (r : Row) : List Row :=
  pw.rows.filter (fun r2 => getCell pw.cols r2 key = getCell df.cols r key)

/-- The merged rows produced by one base row: one padded row when no
secondary row shares its key, else one row per match. -/
def mergeRow (df pw : Table) (key : String) (r : Row) : List Row :=
  if (matchRows df pw key r).isEmpty then
    [r ++ (keepIdx pw.cols key).map (fun _ => Cell.null)]
  else
    (matchRows df pw key r).map (fun r2 => r ++ (keepIdx pw.cols key).map (fun i => r2.getD i .null))

/-- `df.merge(pw, how="left", on=key, suffixes=("", suffix))` (line
122): columns are the left table's, then the right table's non-key
columns with `suffix` appended on a name collision (the left suffix is
empty, so left names are unchanged); each left row pairs with every
right row sharing its key value, in order, or is padded with missing
values when no right row matches. -/
def leftMerge (df pw : Table) (key suffix : String) : Table :=
  let rightCols := (keepIdx pw.cols key).map (fun i =>
    let c := pw.cols.getD i ""
    if df.cols.contains c then c ++ suffix else c)
  ⟨df.cols ++ rightCols, df.rows.flatMap (mergeRow df pw key)⟩

/-- `merge_on_apn` (lines 109–123). -/
def merge_on_apn (base : Table) (other : Option Table) (suffix : String) : Table :=
  match other with
  | none => base
  | some o =>
    if o.rows.length = 0 then base
    else
      let pw := renameParcel o
      let df := setCol base "APN_key" (keyColVals base)
      let pw := setCol pw "APN_key" (keyColVals pw)
      dropCol (leftMerge df pw "APN_key" suffix) "APN_key"

/-! ## Column standardization (lines 193–220) -/

/-- The alias map of lines 195–211 applied to one column label:
`str(c).strip().lower()` is matched against the alias lists, first
match wins, unmatched labels pass through. -/
def canonAlias (c : String) : String :=
  let lc := pyLower (pyStrip c)
  if lc = "apn" ∨ lc = "parcel" ∨ lc = "parcel number" ∨ lc = "parcel_number" then "APN"
  else if lc = "address" ∨ lc = "property address" ∨ lc = "site address" then "Property Address"
  else if lc = "county" ∨ lc = "county finder" ∨ lc = "county_name" then "County Finder"
  else if lc = "city" ∨ lc = "town" then "City"
  else if lc = "state" ∨ lc = "st" then "State"
  else if lc = "zip" ∨ lc = "zipcode" ∨ lc = "postal code" then "Zip"
  else c

/-- The canonical columns backfilled at lines 213–215, in source
order. -/
def canonicalCols : List String :=
  ["APN", "Property Address", "City", "State", "Zip", "County Finder"]

/-- One step of the backfill loop: `df[col] = ""` when the column is
absent. -/
def backfillOne (t : Table) (col : String) : Table :=
  if t.cols.contains col then t
  else ⟨t.cols ++ [col], t.rows.map (fun r => r ++ [.str ""])⟩

/-- Lines 213–215: ensure every canonical column exists, backfilled
with the empty string. -/
def backfillCanonical (t : Table) : Table :=
  canonicalCols.foldl backfillOne t

/-- The `APN_norm` value of one row (line 217):
`df["APN"].astype(str).apply(normalize_apn)`. -/
def apnNormCell (cols : List String) (r : Row) : Cell :=
  .str (normalize_apn (some (astypeStr (getCell cols r "APN"))))

/-- The `addr_query` value of one row (lines 218–220). -/
def addrQueryCell (cols : List String) (r : Row) : Cell :=
  .str (addr_query (getCellD cols r "Property Address" (.str ""))
    (getCellD cols r "City" (.str "")) (getCellD cols r "State" (.str ""))
    (getCellD cols r "Zip" (.str "")))

/-- The column-standardization block (lines 193–220): alias renaming,
canonical backfill, and the two derived columns. -/
def standardizeColumns (t : Table) : Table :=
  let df : Table := ⟨t.cols.map canonAlias, t.rows⟩
  let df := backfillCanonical df
  let df := mapSetCol df "APN_norm" apnNormCell
  mapSetCol df "addr_query" addrQueryCell

/-! ## Confidence score (lines 252–257) -/

/-- Round-half-even to an integer, as numpy's `round` does.  A
rational in lowest terms is exactly halfway between two integers iff
its denominator is 2; off a tie, round-half-even agrees with
`⌊x + 1/2⌋`.  Every value the scorer can produce has `100·q` at
distance ≥ 1/6 from any half-integer (`100·q` is `25·k/3` plus an
integer, clamped at 100), so the tie-breaking mode never fires and
exact rational arithmetic agrees with the source's float64 arithmetic
at this precision. -/
def roundHalfEven (x : ℚ) : ℤ :=
  if x.den = 2 then (if x.floor % 2 = 0 then x.floor else x.floor + 1)
  else (x + mkRat 1 2).floor

/-- `.round(2)`: round to two decimal places. -/
def round2 (q : ℚ) : ℚ := (roundHalfEven (100 * q) : ℤ) / 100

/-- `confidence_score` of one row (lines 252–257): APN length clipped
at 12 over 12, plus 0.5/0.1/0.1 for a non-empty Property Address /
City / State (non-empty after `.astype(str)`), clipped at 1.0 and
rounded to 2 decimals.  The source's `.fillna(0)` is a no-op: the
length of an `.astype(str)` column is never missing. -/
def confidence_score (cols : List String) (r : Row) : ℚ :=
  round2 (min
    (((min (astypeStr (getCell cols r "APN")).length 12 : ℕ) : ℚ) / 12
      + (if 0 < (astypeStr (getCell cols r "Property Address")).length then 1 else 0) * (1 / 2)
      + (if 0 < (astypeStr (getCell cols r "City")).length then 1 else 0) * (1 / 10)
      + (if 0 < (astypeStr (getCell cols r "State")).length then 1 else 0) * (1 / 10))
    1)

/-- Append the `confidence_score` column. -/
def setScore (t : Table) : Table :=
  setCol t "confidence_score" (t.rows.map (fun r => .num (confidence_score t.cols r)))

/-! ## The enrichment run (lines 193–257) -/

/-- The enrichment run: standardize, merge the optional secondary
tables (each only when present and non-empty, lines 238–241), append
the toggled link sets (lines 244–249), and score (lines 252–257). -/
def runEnrichment (leads : Table) (propwire pradar : Option Table)
    (use_county use_osint use_social : Bool) : Table :=
  let df := standardizeColumns leads
  let df := match propwire with
    | some p => if 0 < p.rows.length then merge_on_apn df (some p) "_pw" else df
    | none => df
  let df := match pradar with
    | some p => if 0 < p.rows.length then merge_on_apn df (some p) "_pr" else df
    | none => df
  let df := if use_county then concatCols df gisNames build_gis_links else df
  let df := if use_osint then concatCols df osintNames build_people_osint_links else df
  let df := if use_social then concatCols df socialNames build_social_links else df
  setScore df

/-- Modelled from the spec (§4.4): the Scorer's formula as the spec
states it, over the four field strings —
`min(len(APN), 12)/12 + 0.5·[Property Address non-empty] +
0.1·[City non-empty] + 0.1·[State non-empty]`, clamped to ≤ 1.0,
rounded to 2 decimal places.  Used only to compare the source's scorer
against the spec's words. -/
def scoreSpec (apn addr city state : String) : ℚ :=
  round2 (min
    (min ((apn.length : ℚ)) 12 / 12
      + (if addr ≠ "" then 1 / 2 else 0)
      + (if city ≠ "" then 1 / 10 else 0)
      + (if state ≠ "" then 1 / 10 else 0))
    1)

/-! ## Rounding bounds -/

theorem ratFloor_eq_intFloor (q : ℚ) : q.floor = ⌊q⌋ :=
  (Rat.floor_def' q).trans Rat.floor_def.symm

theorem mkRat_one_two : (mkRat 1 2 : ℚ) = 1 / 2 := by
  rw [Rat.mkRat_eq_divInt, Rat.divInt_eq_div]; norm_num

theorem roundHalfEven_nonneg {x : ℚ} (hx : 0 ≤ x) : 0 ≤ roundHalfEven x := by
  unfold roundHalfEven
  split_ifs <;> rw [ratFloor_eq_intFloor]
  · exact Int.floor_nonneg.mpr hx
  · have h0 : (0 : ℤ) ≤ ⌊x⌋ := Int.floor_nonneg.mpr hx
    omega
  · refine Int.floor_nonneg.mpr ?_
    rw [mkRat_one_two]; linarith

theorem roundHalfEven_le_intCast {x : ℚ} {n : ℤ} (h : x ≤ (n : ℚ)) :
    roundHalfEven x ≤ n := by
  unfold roundHalfEven
  split_ifs with hden hpar <;> rw [ratFloor_eq_intFloor]
  · calc ⌊x⌋ ≤ ⌊(n : ℚ)⌋ := Int.floor_le_floor h
      _ = n := Int.floor_intCast n
  · have hne : x ≠ (n : ℚ) := by
      intro he
      rw [he, Rat.den_intCast] at hden
      exact absurd hden (by norm_num)
    have hlt : ⌊x⌋ < n := Int.floor_lt.mpr (lt_of_le_of_ne h hne)
    omega
  · have : ⌊x + mkRat 1 2⌋ < n + 1 := by
      refine Int.floor_lt.mpr ?_
      rw [mkRat_one_two]
      push_cast
      linarith
    omega

theorem round2_nonneg {q : ℚ} (hq : 0 ≤ q) : 0 ≤ round2 q := by
  unfold round2
  have h : (0 : ℤ) ≤ roundHalfEven (100 * q) := roundHalfEven_nonneg (by linarith)
  positivity

theorem round2_le_one {q : ℚ} (hq : q ≤ 1) : round2 q ≤ 1 := by
  unfold round2
  have h : roundHalfEven (100 * q) ≤ (100 : ℤ) :=
    roundHalfEven_le_intCast (by push_cast; linarith)
  rw [div_le_one (by norm_num)]
  exact_mod_cast h

/-- A string has positive length exactly when it is not empty. -/
theorem length_pos_iff_ne_empty (s : String) : 0 < s.length ↔ s ≠ "" := by
  rw [String.length, List.length_pos]
  constructor
  · intro h he
    exact h (by rw [he])
  · intro h he
    exact h (String.ext he)

/-- **C1.** For every row, the scorer of lines 252–257 computes exactly
the spec's formula — `min(len(APN), 12)/12` plus `0.5`/`0.1`/`0.1` for
a non-empty Property Address / City / State, clamped to at most 1.0 and
rounded to two decimals — applied to the row's (string-coerced) field
values, and the result always lies in `[0, 1]`. -/
theorem confidence_score_matches_spec_and_bounded (cols : List String) (r : Row) :
    confidence_score cols r =
      scoreSpec (astypeStr (getCell cols r "APN"))
        (astypeStr (getCell cols r "Property Address"))
        (astypeStr (getCell cols r "City"))
        (astypeStr (getCell cols r "State")) ∧
    0 ≤ confidence_score cols r ∧ confidence_score cols r ≤ 1 := by
  refine ⟨?_, ?_, ?_⟩
  · unfold confidence_score scoreSpec
    rw [Nat.cast_min,
      if_congr (length_pos_iff_ne_empty (astypeStr (getCell cols r "Property Address"))) rfl rfl,
      if_congr (length_pos_iff_ne_empty (astypeStr (getCell cols r "City"))) rfl rfl,
      if_congr (length_pos_iff_ne_empty (astypeStr (getCell cols r "State"))) rfl rfl,
      ite_mul, ite_mul, ite_mul]
    simp only [one_mul, zero_mul]
    norm_num
  · unfold confidence_score
    apply round2_nonneg
    have hmin : (0 : ℚ) ≤ ((min (astypeStr (getCell cols r "APN")).length 12 : ℕ) : ℚ) / 12 := by
      positivity
    refine le_min ?_ zero_le_one
    split_ifs <;> linarith
  · unfold confidence_score
    exact round2_le_one (min_le_right _ 1)

/-! ## C7: normalize_apn -/

/-- **C7.** `normalize_apn` trims its input, deletes every occurrence
of space, hyphen, underscore, slash and period, and lower-cases the
result; in particular `normalize_apn "123-45 / 6.7_8" = "12345678"`
and `normalize_apn None = ""`. -/
theorem normalize_apn_correct :
    normalize_apn (some "123-45 / 6.7_8") = "12345678" ∧
    normalize_apn none = "" ∧
    ∀ s : String, (normalize_apn (some s)).data =
      ((pyStrip s).data.filter
        (fun c => c ∉ ([' ', '-', '_', '/', '.'] : List Char))).map pyCharLower := by
  refine ⟨by decide, by decide, fun s => ?_⟩
  show (pyLower (pyDeleteChar (pyDeleteChar (pyDeleteChar (pyDeleteChar
      (pyDeleteChar (pyStrip s) ' ') '-') '_') '/') '.')).data = _
  unfold pyLower pyDeleteChar
  simp only [List.filter_filter]
  congr 1
  apply List.filter_congr
  intro c _
  rw [Bool.eq_iff_iff]
  simp only [List.mem_cons, List.not_mem_nil, or_false, Bool.and_eq_true,
    Bool.not_eq_true', decide_eq_false_iff_not, decide_eq_true_eq]
  tauto

/-! ## Column-index and cell-access lemmas -/

theorem colIdx_lt_length {n : String} : ∀ {cols : List String} {i : ℕ},
    colIdx cols n = some i → i < cols.length
  | [], i, h => by simp [colIdx] at h
  | c :: cs, i, h => by
    rw [colIdx] at h
    split at h
    · cases h
      simp
    · obtain ⟨j, hj, rfl⟩ := Option.map_eq_some'.mp h
      simpa using Nat.succ_lt_succ (colIdx_lt_length hj)

theorem colIdx_getD {n d : String} : ∀ {cols : List String} {i : ℕ},
    colIdx cols n = some i → cols.getD i d = n
  | [], i, h => by simp [colIdx] at h
  | c :: cs, i, h => by
    rw [colIdx] at h
    split at h
    · cases h
      simpa using by assumption
    · obtain ⟨j, hj, rfl⟩ := Option.map_eq_some'.mp h
      simpa using colIdx_getD hj

theorem colIdx_eq_none_iff {n : String} : ∀ {cols : List String},
    colIdx cols n = none ↔ n ∉ cols
  | [] => by simp [colIdx]
  | c :: cs => by
    rw [colIdx]
    by_cases hc : c = n
    · subst hc
      simp
    · rw [if_neg hc]
      simp only [Option.map_eq_none', List.mem_cons, not_or]
      rw [colIdx_eq_none_iff]
      exact ⟨fun h => ⟨fun he => hc he.symm, h⟩, fun h => h.2⟩

theorem colIdx_ne_of_ne {cols : List String} {n m : String} {i j : ℕ}
    (hn : colIdx cols n = some i) (hm : colIdx cols m = some j) (hnm : n ≠ m) : i ≠ j := by
  intro he
  apply hnm
  rw [← colIdx_getD (d := "") hn, ← colIdx_getD (d := "") hm, he]

theorem colIdx_append_left {n : String} {l : List String} : ∀ {cols : List String} {i : ℕ},
    colIdx cols n = some i → colIdx (cols ++ l) n = some i
  | [], i, h => by simp [colIdx] at h
  | c :: cs, i, h => by
    rw [colIdx] at h
    rw [List.cons_append, colIdx]
    by_cases hc : c = n
    · rw [if_pos hc] at h ⊢
      exact h
    · rw [if_neg hc] at h ⊢
      obtain ⟨j, hj, hji⟩ := Option.map_eq_some'.mp h
      rw [colIdx_append_left hj]
      simp [hji]

theorem colIdx_append_right {n : String} {l : List String} : ∀ {cols : List String},
    colIdx cols n = none → colIdx (cols ++ l) n = (colIdx l n).map (· + cols.length)
  | [], _ => by
    cases h : colIdx l n <;> simp [h]
  | c :: cs, h => by
    rw [colIdx] at h
    by_cases hc : c = n
    · rw [if_pos hc] at h
      simp at h
    · rw [if_neg hc] at h
      have h' : colIdx cs n = none := Option.map_eq_none'.mp h
      rw [List.cons_append, colIdx, if_neg hc, colIdx_append_right h']
      cases hl : colIdx l n
      · simp
      · simp only [Option.map_some', Option.some.injEq, List.length_cons]
        omega

theorem colIdx_append_self {cols : List String} {n : String} (h : colIdx cols n = none) :
    colIdx (cols ++ [n]) n = some cols.length := by
  rw [colIdx_append_right h]
  simp [colIdx]

/-! ## Row access lemmas -/

theorem getD_set_ne {α : Type _} (r : List α) {i j : ℕ} (h : i ≠ j) (v d : α) :
    (r.set i v).getD j d = r.getD j d := by
  simp [List.getD_eq_getElem?_getD, List.getElem?_set_ne h]

theorem getD_set_self {α : Type _} (r : List α) {i : ℕ} (h : i < r.length) (v d : α) :
    (r.set i v).getD i d = v := by
  simp [List.getD_eq_getElem?_getD, List.getElem?_set_self h]

theorem getD_append_left {α : Type _} (r l : List α) {i : ℕ} (h : i < r.length) (d : α) :
    (r ++ l).getD i d = r.getD i d := by
  simp [List.getD_eq_getElem?_getD, List.getElem?_append_left h]

theorem getD_append_self {α : Type _} (r : List α) (v d : α) :
    (r ++ [v]).getD r.length d = v := by
  simp [List.getD_eq_getElem?_getD, List.getElem?_append_right (le_refl r.length)]

theorem set_getD_self {α : Type _} : ∀ (r : List α) (i : ℕ) (d : α),
    r.set i (r.getD i d) = r
  | [], _, _ => rfl
  | _ :: _, 0, _ => rfl
  | a :: t, i + 1, d => congrArg (a :: ·) (set_getD_self t i d)

theorem zipWith_map_self {α β : Type _} (l : List α) (g : α → β) (f : α → β → α) :
    List.zipWith f l (l.map g) = l.map fun a => f a (g a) := by
  rw [List.zipWith_map_right, List.zipWith_same]

/-! ## getCellD / setCol lemmas -/

theorem getCellD_of_some {cols : List String} {r : Row} {n : String} {i : ℕ} (d : Cell)
    (h : colIdx cols n = some i) : getCellD cols r n d = r.getD i .null := by
  simp [getCellD, h]

theorem getCellD_of_none {cols : List String} {r : Row} {n : String} (d : Cell)
    (h : colIdx cols n = none) : getCellD cols r n d = d := by
  simp [getCellD, h]

theorem getCellD_set_self {cols : List String} {r : Row} {n : String} {i : ℕ} (d : Cell)
    (h : colIdx cols n = some i) (hlen : i < r.length) (v : Cell) :
    getCellD cols (r.set i v) n d = v := by
  rw [getCellD_of_some d h, getD_set_self _ hlen]

theorem getCellD_set_ne {cols : List String} {r : Row} {n m : String} {i : ℕ} (d : Cell)
    (hn : colIdx cols n = some i) (hm : m ≠ n) (v : Cell) :
    getCellD cols (r.set i v) m d = getCellD cols r m d := by
  cases hm' : colIdx cols m with
  | none => rw [getCellD_of_none d hm', getCellD_of_none d hm']
  | some j =>
    rw [getCellD_of_some d hm', getCellD_of_some d hm',
      getD_set_ne _ (colIdx_ne_of_ne hn hm' (Ne.symm hm)) _ _]

theorem getCellD_append_self {cols : List String} {r : Row} {n : String} (d : Cell)
    (h : colIdx cols n = none) (hlen : r.length = cols.length) (v : Cell) :
    getCellD (cols ++ [n]) (r ++ [v]) n d = v := by
  rw [getCellD_of_some d (colIdx_append_self h), ← hlen, getD_append_self]

theorem getCellD_append_other {cols : List String} {r : Row} {n m : String} (d : Cell)
    (hm : m ≠ n) (hlen : r.length = cols.length) (v : Cell) :
    getCellD (cols ++ [n]) (r ++ [v]) m d = getCellD cols r m d := by
  cases hm' : colIdx cols m with
  | none =>
    have : colIdx (cols ++ [n]) m = none := by
      rw [colIdx_append_right hm']
      have hn : colIdx [n] m = none := by
        rw [colIdx, if_neg (Ne.symm hm)]
        rfl
      rw [hn]
      rfl
    rw [getCellD_of_none d this, getCellD_of_none d hm']
  | some j =>
    rw [getCellD_of_some d (colIdx_append_left hm'), getCellD_of_some d hm',
      getD_append_left _ _ (hlen ▸ colIdx_lt_length hm') _]

theorem setCol_of_some {t : Table} {name : String} {i : ℕ} (vals : List Cell)
    (h : colIdx t.cols name = some i) :
    setCol t name vals = ⟨t.cols, t.rows.zipWith (fun r v => r.set i v) vals⟩ := by
  simp [setCol, h]

theorem setCol_of_none {t : Table} {name : String} (vals : List Cell)
    (h : colIdx t.cols name = none) :
    setCol t name vals = ⟨t.cols ++ [name], t.rows.zipWith (fun r v => r ++ [v]) vals⟩ := by
  simp [setCol, h]

theorem mapSetCol_of_some {t : Table} {name : String} {i : ℕ} (f : List String → Row → Cell)
    (h : colIdx t.cols name = some i) :
    mapSetCol t name f = ⟨t.cols, t.rows.map (fun r => r.set i (f t.cols r))⟩ := by
  rw [mapSetCol, setCol_of_some _ h, zipWith_map_self]

theorem mapSetCol_of_none {t : Table} {name : String} (f : List String → Row → Cell)
    (h : colIdx t.cols name = none) :
    mapSetCol t name f = ⟨t.cols ++ [name], t.rows.map (fun r => r ++ [f t.cols r])⟩ := by
  rw [mapSetCol, setCol_of_none _ h, zipWith_map_self]

theorem mem_setCol_cols {t : Table} {name : String} (vals : List Cell) {c : String}
    (h : c ∈ t.cols) : c ∈ (setCol t name vals).cols := by
  cases hi : colIdx t.cols name with
  | some i => rw [setCol_of_some _ hi]; exact h
  | none => rw [setCol_of_none _ hi]; exact List.mem_append_left _ h

theorem self_mem_setCol_cols (t : Table) (name : String) (vals : List Cell) :
    name ∈ (setCol t name vals).cols := by
  cases hi : colIdx t.cols name with
  | some i =>
    rw [setCol_of_some _ hi]
    by_contra hmem
    rw [colIdx_eq_none_iff.mpr hmem] at hi
    cases hi
  | none => rw [setCol_of_none _ hi]; simp

/-! ## Merge lemmas: C4, C5 -/

theorem setCol_map_rows_length (t : Table) (name : String) (g : Row → Cell) :
    (setCol t name (t.rows.map g)).rows.length = t.rows.length := by
  cases h : colIdx t.cols name with
  | some i => rw [setCol_of_some _ h]; simp
  | none => rw [setCol_of_none _ h]; simp

theorem dropCol_rows_length (t : Table) (name : String) :
    (dropCol t name).rows.length = t.rows.length := by
  simp [dropCol]

theorem length_le_length_flatMap {α β : Type _} (l : List α) (f : α → List β)
    (h : ∀ x ∈ l, 1 ≤ (f x).length) : l.length ≤ (l.flatMap f).length := by
  induction l with
  | nil => simp
  | cons a t ih =>
    simp only [List.flatMap_cons, List.length_append, List.length_cons]
    have h1 := h a (List.mem_cons_self a t)
    have h2 := ih fun x hx => h x (List.mem_cons_of_mem a hx)
    omega

theorem mergeRow_length_pos (df pw : Table) (key : String) (r : Row) :
    1 ≤ (mergeRow df pw key r).length := by
  unfold mergeRow
  split
  · simp
  · rename_i hne
    rw [List.length_map]
    have : matchRows df pw key r ≠ [] := by simpa [List.isEmpty_iff] using hne
    exact List.length_pos.mpr this

theorem leftMerge_rows_length_ge (df pw : Table) (key suffix : String) :
    df.rows.length ≤ (leftMerge df pw key suffix).rows.length := by
  unfold leftMerge
  exact length_le_length_flatMap _ _ fun r _ => mergeRow_length_pos df pw key r

/-- **C4.** The merge is a left join: every base row survives (fanning
out once per matching secondary row), so the merged row count is never
smaller than the base row count, for every base table and every
(possibly missing or empty) secondary table. -/
theorem merge_on_apn_row_count (base : Table) (other : Option Table) (suffix : String) :
    base.rows.length ≤ (merge_on_apn base other suffix).rows.length := by
  cases other with
  | none => exact le_refl _
  | some o =>
    simp only [merge_on_apn]
    split
    · exact le_refl _
    · rw [dropCol_rows_length]
      have h1 : (setCol base "APN_key" (keyColVals base)).rows.length = base.rows.length :=
        setCol_map_rows_length base "APN_key" (keyCellF base.cols)
      have h2 := leftMerge_rows_length_ge (setCol base "APN_key" (keyColVals base))
        (setCol (renameParcel o) "APN_key" (keyColVals (renameParcel o))) "APN_key" suffix
      omega

theorem dropCol_not_mem (t : Table) (name : String) : name ∉ (dropCol t name).cols := by
  intro hmem
  rw [dropCol] at hmem
  simp only [List.mem_map] at hmem
  obtain ⟨i, hi, heq⟩ := hmem
  rw [keepIdx, List.mem_filter] at hi
  rw [heq] at hi
  simp at hi

/-- **C5 counterexample.** The claim "the result of the merge never
contains a column named exactly `APN_key`" fails when the secondary
table is empty: the merge then returns the base table unchanged, and a
base table may carry a pre-existing `APN_key` column. -/
theorem merge_keeps_preexisting_key_on_empty_secondary :
    "APN_key" ∈ (merge_on_apn ⟨["APN_key", "APN"], [[.str "x", .str "1"]]⟩
      (some ⟨["APN"], []⟩) "_pw").cols := by decide

/-- **C5 amended.** Whenever the merge actually runs — the secondary
table is present and non-empty — the ephemeral join key is dropped and
the result never contains a column named `APN_key`; a missing or empty
secondary table returns the base unchanged (including any pre-existing
`APN_key` column of the base). -/
theorem merge_on_apn_never_outputs_key (base o : Table) (suffix : String)
    (h : o.rows ≠ []) :
    "APN_key" ∉ (merge_on_apn base (some o) suffix).cols := by
  simp only [merge_on_apn]
  rw [if_neg (by simpa using h)]
  exact dropCol_not_mem _ _

theorem merge_on_apn_never_outputs_key_witness :
    (⟨["APN"], [[Cell.str "A1"]]⟩ : Table).rows ≠ [] ∧
    "APN_key" ∉ (merge_on_apn ⟨["APN"], [[.str "1"]]⟩
      (some ⟨["APN"], [[Cell.str "A1"]]⟩) "_pw").cols :=
  ⟨by decide, merge_on_apn_never_outputs_key _ _ _ (by decide)⟩

/-! ## Backfill and derived-column lemmas -/

theorem getD_map {α β : Type _} (g : α → β) (l : List α) {k : ℕ} (hk : k < l.length)
    (d : β) (d' : α) : (l.map g).getD k d = g (l.getD k d') := by
  rw [List.getD_eq_getElem?_getD, List.getD_eq_getElem?_getD, List.getElem?_map,
    List.getElem?_eq_getElem hk]
  rfl

theorem contains_iff_mem {l : List String} {c : String} : l.contains c = true ↔ c ∈ l := by
  simp [List.contains_iff_exists_mem_beq, eq_comm]

theorem getD_mem {α : Type _} (l : List α) {k : ℕ} (hk : k < l.length) (d : α) :
    l.getD k d ∈ l := by
  rw [List.getD_eq_getElem?_getD, List.getElem?_eq_getElem hk]
  exact List.getElem_mem hk

theorem backfillOne_rows_length (t : Table) (col : String) :
    (backfillOne t col).rows.length = t.rows.length := by
  unfold backfillOne
  split <;> simp

theorem backfillOne_WF {t : Table} (col : String) (hWF : WF t) : WF (backfillOne t col) := by
  unfold backfillOne
  split
  · exact hWF
  · intro r hr
    simp only [List.mem_map] at hr
    obtain ⟨r0, hr0, rfl⟩ := hr
    simp [hWF r0 hr0]

theorem backfillOne_cols_sub (t : Table) (col : String) :
    t.cols ⊆ (backfillOne t col).cols := by
  unfold backfillOne
  split
  · exact fun _ h => h
  · exact fun _ h => List.mem_append_left _ h

theorem mem_backfillOne_self (t : Table) (col : String) :
    col ∈ (backfillOne t col).cols := by
  unfold backfillOne
  split
  · exact contains_iff_mem.mp (by assumption)
  · simp

theorem backfillOne_cell_preserved (t : Table) (col : String) (hWF : WF t)
    {c : String} (hc : c ∈ t.cols) {k : ℕ} (hk : k < t.rows.length) :
    getCell (backfillOne t col).cols ((backfillOne t col).rows.getD k []) c =
      getCell t.cols (t.rows.getD k []) c := by
  unfold backfillOne
  split
  · rfl
  · rename_i hcon
    have hcol : col ∉ t.cols := fun hm => hcon (contains_iff_mem.mpr hm)
    have hne : c ≠ col := fun he => hcol (he ▸ hc)
    show getCell (t.cols ++ [col]) ((t.rows.map (fun r => r ++ [.str ""])).getD k []) c = _
    rw [getD_map _ _ hk _ []]
    exact getCellD_append_other _ hne (hWF _ (getD_mem t.rows hk [])) _

theorem backfillOne_new_cell (t : Table) (col : String) (hWF : WF t)
    (hcol : col ∉ t.cols) {k : ℕ} (hk : k < t.rows.length) :
    getCell (backfillOne t col).cols ((backfillOne t col).rows.getD k []) col = .str "" := by
  unfold backfillOne
  rw [if_neg (fun hcon => hcol (contains_iff_mem.mp hcon))]
  show getCell (t.cols ++ [col]) ((t.rows.map (fun r => r ++ [.str ""])).getD k []) col = _
  rw [getD_map _ _ hk _ []]
  exact getCellD_append_self _ (colIdx_eq_none_iff.mpr hcol)
    (hWF _ (getD_mem t.rows hk [])) _

theorem backfillFold_rows_length (l : List String) : ∀ (t : Table),
    (l.foldl backfillOne t).rows.length = t.rows.length := by
  induction l with
  | nil => intro t; rfl
  | cons a l ih =>
    intro t
    rw [List.foldl_cons, ih, backfillOne_rows_length]

theorem backfillFold_WF (l : List String) : ∀ {t : Table}, WF t → WF (l.foldl backfillOne t) := by
  induction l with
  | nil => intro t h; exact h
  | cons a l ih => intro t h; exact ih (backfillOne_WF a h)

theorem backfillFold_cols_sub (l : List String) : ∀ (t : Table),
    t.cols ⊆ (l.foldl backfillOne t).cols := by
  induction l with
  | nil => intro t; exact fun _ h => h
  | cons a l ih =>
    intro t
    exact fun c hc => ih (backfillOne t a) (backfillOne_cols_sub t a hc)

theorem mem_backfillFold (l : List String) : ∀ (t : Table) (c : String), c ∈ l →
    c ∈ (l.foldl backfillOne t).cols := by
  induction l with
  | nil => intro t c hc; cases hc
  | cons a l ih =>
    intro t c hc
    rcases List.mem_cons.mp hc with rfl | hc
    · exact backfillFold_cols_sub l _ (mem_backfillOne_self t c)
    · exact ih _ c hc

theorem backfillFold_cell_preserved (l : List String) : ∀ (t : Table), WF t →
    ∀ {c : String}, c ∈ t.cols → ∀ {k : ℕ}, k < t.rows.length →
    getCell (l.foldl backfillOne t).cols ((l.foldl backfillOne t).rows.getD k []) c =
      getCell t.cols (t.rows.getD k []) c := by
  induction l with
  | nil => intro t _ c hc k hk; rfl
  | cons a l ih =>
    intro t hWF c hc k hk
    rw [List.foldl_cons,
      ih (backfillOne t a) (backfillOne_WF a hWF) (backfillOne_cols_sub t a hc)
        (by rw [backfillOne_rows_length]; exact hk),
      backfillOne_cell_preserved t a hWF hc hk]

theorem backfillFold_new_cell (l : List String) : ∀ (t : Table), WF t →
    ∀ {c : String}, c ∈ l → c ∉ t.cols → ∀ {k : ℕ}, k < t.rows.length →
    getCell (l.foldl backfillOne t).cols ((l.foldl backfillOne t).rows.getD k []) c =
      .str "" := by
  induction l with
  | nil => intro t _ c hc; cases hc
  | cons a l ih =>
    intro t hWF c hcl hct k hk
    rw [List.foldl_cons]
    rcases List.mem_cons.mp hcl with rfl | hcl
    · rw [backfillFold_cell_preserved l (backfillOne t c) (backfillOne_WF c hWF)
        (mem_backfillOne_self t c) (by rw [backfillOne_rows_length]; exact hk)]
      exact backfillOne_new_cell t c hWF hct hk
    · by_cases hmem : c ∈ (backfillOne t a).cols
      · rw [backfillFold_cell_preserved l (backfillOne t a) (backfillOne_WF a hWF) hmem
          (by rw [backfillOne_rows_length]; exact hk)]
        -- c was absent from t but is a column of `backfillOne t a`: only possible
        -- when a = c was appended, so the cell is the backfilled empty string
        unfold backfillOne at hmem
        split at hmem
        · exact absurd hmem hct
        · rcases List.mem_append.mp hmem with h | h
          · exact absurd h hct
          · have hac : c = a := by simpa using h
            rw [hac]
            exact backfillOne_new_cell t a hWF (hac ▸ hct) hk
      · exact ih (backfillOne t a) (backfillOne_WF a hWF) hcl hmem
          (by rw [backfillOne_rows_length]; exact hk)

theorem mapSetCol_rows_length (t : Table) (name : String) (f : List String → Row → Cell) :
    (mapSetCol t name f).rows.length = t.rows.length :=
  setCol_map_rows_length t name (f t.cols)

theorem mapSetCol_WF {t : Table} (name : String) (f : List String → Row → Cell)
    (hWF : WF t) : WF (mapSetCol t name f) := by
  cases h : colIdx t.cols name with
  | some i =>
    rw [mapSetCol_of_some _ h]
    intro r hr
    simp only [List.mem_map] at hr
    obtain ⟨r0, hr0, rfl⟩ := hr
    simp [hWF r0 hr0]
  | none =>
    rw [mapSetCol_of_none _ h]
    intro r hr
    simp only [List.mem_map] at hr
    obtain ⟨r0, hr0, rfl⟩ := hr
    simp [hWF r0 hr0]

theorem mapSetCol_cols_mem {t : Table} (name : String) (f : List String → Row → Cell)
    {c : String} (hc : c ∈ t.cols) : c ∈ (mapSetCol t name f).cols :=
  mem_setCol_cols _ hc

theorem mapSetCol_cell_preserved (t : Table) (name : String) (f : List String → Row → Cell)
    (hWF : WF t) {m : String} (hm : m ≠ name) {k : ℕ} (hk : k < t.rows.length) :
    getCell (mapSetCol t name f).cols ((mapSetCol t name f).rows.getD k []) m =
      getCell t.cols (t.rows.getD k []) m := by
  cases h : colIdx t.cols name with
  | some i =>
    rw [mapSetCol_of_some _ h]
    show getCell t.cols ((t.rows.map (fun r => r.set i (f t.cols r))).getD k []) m = _
    rw [getD_map _ _ hk _ []]
    exact getCellD_set_ne _ h hm _
  | none =>
    rw [mapSetCol_of_none _ h]
    show getCell (t.cols ++ [name]) ((t.rows.map (fun r => r ++ [f t.cols r])).getD k []) m = _
    rw [getD_map _ _ hk _ []]
    exact getCellD_append_other _ hm (hWF _ (getD_mem t.rows hk [])) _

theorem mapSetCol_cell_self (t : Table) (name : String) (f : List String → Row → Cell)
    (hWF : WF t) {k : ℕ} (hk : k < t.rows.length) :
    getCell (mapSetCol t name f).cols ((mapSetCol t name f).rows.getD k []) name =
      f t.cols (t.rows.getD k []) := by
  cases h : colIdx t.cols name with
  | some i =>
    rw [mapSetCol_of_some _ h]
    show getCell t.cols ((t.rows.map (fun r => r.set i (f t.cols r))).getD k []) name = _
    rw [getD_map _ _ hk _ []]
    exact getCellD_set_self _ h
      (by rw [hWF _ (getD_mem t.rows hk [])]; exact colIdx_lt_length h) _
  | none =>
    rw [mapSetCol_of_none _ h]
    show getCell (t.cols ++ [name]) ((t.rows.map (fun r => r ++ [f t.cols r])).getD k []) name = _
    rw [getD_map _ _ hk _ []]
    exact getCellD_append_self _ h (hWF _ (getD_mem t.rows hk [])) _

/-! ## C6: canonical columns after normalization -/

theorem standardizeColumns_eq (t : Table) :
    standardizeColumns t =
      mapSetCol (mapSetCol (backfillCanonical ⟨t.cols.map canonAlias, t.rows⟩)
        "APN_norm" apnNormCell) "addr_query" addrQueryCell := rfl

theorem WF_renamed (t : Table) (hWF : WF t) : WF (⟨t.cols.map canonAlias, t.rows⟩ : Table) := by
  intro r hr
  simpa using hWF r hr

theorem backfillCanonical_rows_length (t : Table) :
    (backfillCanonical t).rows.length = t.rows.length :=
  backfillFold_rows_length canonicalCols t

theorem standardizeColumns_rows_length (t : Table) :
    (standardizeColumns t).rows.length = t.rows.length := by
  rw [standardizeColumns_eq, mapSetCol_rows_length, mapSetCol_rows_length,
    backfillCanonical_rows_length]

/-- **C6.** After the standardization block runs, each of the six
canonical fields is a column of the result; and when a canonical field
was absent from the source even after alias renaming, it is backfilled
with the empty string on every row. -/
theorem standardize_canonical_fields (t : Table) (hWF : WF t) {c : String}
    (hc : c ∈ canonicalCols) :
    c ∈ (standardizeColumns t).cols ∧
    (c ∉ t.cols.map canonAlias →
      ∀ k < (standardizeColumns t).rows.length,
        getCell (standardizeColumns t).cols
          ((standardizeColumns t).rows.getD k []) c = .str "") := by
  have hWF0 : WF (⟨t.cols.map canonAlias, t.rows⟩ : Table) := WF_renamed t hWF
  have hWFb : WF (backfillCanonical ⟨t.cols.map canonAlias, t.rows⟩) :=
    backfillFold_WF canonicalCols hWF0
  have hWF1 : WF (mapSetCol (backfillCanonical ⟨t.cols.map canonAlias, t.rows⟩)
      "APN_norm" apnNormCell) := mapSetCol_WF _ _ hWFb
  have hne1 : c ≠ "APN_norm" := fun he => by
    rw [he] at hc
    exact absurd hc (by decide)
  have hne2 : c ≠ "addr_query" := fun he => by
    rw [he] at hc
    exact absurd hc (by decide)
  constructor
  · rw [standardizeColumns_eq]
    exact mapSetCol_cols_mem _ _ (mapSetCol_cols_mem _ _ (mem_backfillFold canonicalCols _ c hc))
  · intro habs k hk
    rw [standardizeColumns_rows_length] at hk
    rw [standardizeColumns_eq]
    rw [mapSetCol_cell_preserved _ _ _ hWF1 hne2
        (by rw [mapSetCol_rows_length, backfillCanonical_rows_length]; exact hk),
      mapSetCol_cell_preserved _ _ _ hWFb hne1
        (by rw [backfillCanonical_rows_length]; exact hk)]
    exact backfillFold_new_cell canonicalCols _ hWF0 hc habs hk

theorem standardize_canonical_fields_witness :
    WF (⟨["Parcel"], [[Cell.str "1"]]⟩ : Table) ∧
    "City" ∈ canonicalCols ∧
    "City" ∉ (⟨["Parcel"], [[Cell.str "1"]]⟩ : Table).cols.map canonAlias ∧
    "City" ∈ (standardizeColumns ⟨["Parcel"], [[.str "1"]]⟩).cols ∧
    getCell (standardizeColumns ⟨["Parcel"], [[.str "1"]]⟩).cols
      ((standardizeColumns ⟨["Parcel"], [[.str "1"]]⟩).rows.getD 0 []) "City" = .str "" :=
  ⟨by decide, by decide, by decide,
    (standardize_canonical_fields _ (by decide) (by decide)).1,
    (standardize_canonical_fields _ (by decide) (by decide)).2 (by decide) 0 (by decide)⟩

/-! ## C9: toggle-gated link columns -/

theorem runEnrichment_osint_only_shape (t : Table) :
    runEnrichment t none none false true false =
      setScore (concatCols (standardizeColumns t) osintNames build_people_osint_links) := by
  unfold runEnrichment
  simp only [Bool.false_eq_true, if_false, if_true]

theorem setScore_cols_cases (t : Table) :
    (setScore t).cols = t.cols ++ ["confidence_score"] ∨ (setScore t).cols = t.cols := by
  unfold setScore
  cases h : colIdx t.cols "confidence_score" with
  | some i => rw [setCol_of_some _ h]; exact Or.inr rfl
  | none => rw [setCol_of_none _ h]; exact Or.inl rfl

/-- **C9.** With only the OSINT toggle enabled (no secondary tables),
the run adds exactly the five OSINT link columns (plus the always-added
`confidence_score`): the output columns are the standardized columns
followed by the five OSINT names (and `confidence_score`), and no GIS
or social link column is ever added — such a name appears in the output
only if the source table already carried it. -/
theorem osint_toggle_adds_exactly_osint_columns (t : Table) :
    ((runEnrichment t none none false true false).cols =
        ((standardizeColumns t).cols ++ osintNames) ++ ["confidence_score"] ∨
      (runEnrichment t none none false true false).cols =
        (standardizeColumns t).cols ++ osintNames) ∧
    (∀ c ∈ gisNames ++ socialNames, c ∉ (standardizeColumns t).cols →
      c ∉ (runEnrichment t none none false true false).cols) := by
  have hshape : (runEnrichment t none none false true false).cols =
      (setScore (concatCols (standardizeColumns t) osintNames build_people_osint_links)).cols := by
    rw [runEnrichment_osint_only_shape]
  have hconcat : (concatCols (standardizeColumns t) osintNames build_people_osint_links).cols =
      (standardizeColumns t).cols ++ osintNames := rfl
  have hcases := setScore_cols_cases
    (concatCols (standardizeColumns t) osintNames build_people_osint_links)
  rw [hconcat] at hcases
  constructor
  · rcases hcases with h | h
    · exact Or.inl (hshape.trans h)
    · exact Or.inr (hshape.trans h)
  · intro c hc hnc hmem
    have hc' : c = "GIS_Google" ∨ c = "GIS_Bing" ∨ c = "Appraiser_Search" ∨
        c = "GIS_By_Address" ∨ c = "Facebook_Search" ∨ c = "LinkedIn_Search" ∨
        c = "X_Search" := by
      simpa [gisNames, socialNames] using hc
    rw [hshape] at hmem
    rcases hcases with h | h <;> rw [h] at hmem <;>
      rcases hc' with rfl | rfl | rfl | rfl | rfl | rfl | rfl <;>
      simp only [osintNames, List.mem_append, List.mem_cons, List.not_mem_nil,
        String.reduceEq, or_false, false_or] at hmem <;>
      exact hnc hmem

theorem osint_toggle_adds_exactly_osint_columns_witness :
    "GIS_Google" ∈ gisNames ++ socialNames ∧
    "GIS_Google" ∉ (standardizeColumns ⟨["Parcel"], [[Cell.str "1"]]⟩).cols ∧
    "GIS_Google" ∉ (runEnrichment ⟨["Parcel"], [[Cell.str "1"]]⟩ none none false true false).cols :=
  ⟨by decide, by decide,
    (osint_toggle_adds_exactly_osint_columns ⟨["Parcel"], [[Cell.str "1"]]⟩).2
      "GIS_Google" (by decide) (by decide)⟩

/-! ## C10: empty join keys match each other -/

/-- Setting a column turns each row into a transformed row whose cell at
the set column is the computed value and whose other cells read
unchanged. -/
theorem mapSetCol_map_form (t : Table) (name : String) (f : List String → Row → Cell)
    (hWF : WF t) :
    ∃ F, (mapSetCol t name f).rows = t.rows.map F ∧
      ∀ r ∈ t.rows, getCell (mapSetCol t name f).cols (F r) name = f t.cols r := by
  cases h : colIdx t.cols name with
  | some i =>
    refine ⟨fun r => r.set i (f t.cols r), ?_, ?_⟩
    · rw [mapSetCol_of_some _ h]
    · intro r hr
      rw [mapSetCol_of_some _ h]
      exact getCellD_set_self _ h (by rw [hWF r hr]; exact colIdx_lt_length h) _
  | none =>
    refine ⟨fun r => r ++ [f t.cols r], ?_, ?_⟩
    · rw [mapSetCol_of_none _ h]
    · intro r hr
      rw [mapSetCol_of_none _ h]
      exact getCellD_append_self _ h (hWF r hr) _

theorem WF_renameParcel {o : Table} (hWF : WF o) : WF (renameParcel o) := by
  unfold renameParcel
  split
  · intro r hr
    simpa using hWF r hr
  · intro r hr
    simp only [List.mem_map] at hr
    obtain ⟨r0, hr0, rfl⟩ := hr
    simp [hWF r0 hr0]

theorem stripNonWord_eq_empty {s : String} (h : ∀ c ∈ s.data, isWordChar c = false) :
    stripNonWord s = "" := by
  unfold stripNonWord
  congr 1
  exact List.filter_eq_nil_iff.mpr (by simpa using h)

/-- **C10.** A base row whose APN consists entirely of non-word
characters derives the empty join key, and the merge then pairs it with
every secondary row whose APN also reduces to the empty key: for a
one-row base table with such an APN, the merged row count is the number
of empty-key secondary rows (fanning out), or one when there are none
(the padded left-join row). -/
theorem merge_empty_key_fanout (apn : String)
    (h : ∀ c ∈ apn.data, isWordChar c = false) (o : Table) (hWFo : WF o) (suffix : String) :
    apnKeyOfCell (.str apn) = "" ∧
    (merge_on_apn ⟨["APN"], [[.str apn]]⟩ (some o) suffix).rows.length =
      max ((renameParcel o).rows.countP
        (fun r => apnKeyOfCell (getCell (renameParcel o).cols r "APN") = "")) 1 := by
  have hkey : apnKeyOfCell (.str apn) = "" := by
    unfold apnKeyOfCell
    rw [show astypeStr (.str apn) = apn from rfl, stripNonWord_eq_empty h]
    rfl
  refine ⟨hkey, ?_⟩
  simp only [merge_on_apn]
  split
  · -- empty secondary: the merge is the identity on the one-row base
    rename_i h0
    have : (renameParcel o).rows = [] := by
      have ho : o.rows = [] := List.length_eq_zero.mp h0
      unfold renameParcel
      split <;> simp [ho]
    rw [this]
    rfl
  · rename_i h0
    rw [dropCol_rows_length]
    have hWFrp : WF (renameParcel o) := WF_renameParcel hWFo
    obtain ⟨F, hrows, hself⟩ := mapSetCol_map_form (renameParcel o) "APN_key" keyCellF hWFrp
    -- the base side: the single row carries the empty key
    have hdf : setCol (⟨["APN"], [[.str apn]]⟩ : Table) "APN_key"
        (keyColVals ⟨["APN"], [[.str apn]]⟩) =
        ⟨["APN", "APN_key"], [[.str apn, .str (apnKeyOfCell (.str apn))]]⟩ := rfl
    rw [hdf, hkey]
    have hlm : (leftMerge (⟨["APN", "APN_key"], [[Cell.str apn, Cell.str ""]]⟩ : Table)
        (setCol (renameParcel o) "APN_key" (keyColVals (renameParcel o))) "APN_key"
        suffix).rows =
        mergeRow (⟨["APN", "APN_key"], [[Cell.str apn, Cell.str ""]]⟩ : Table)
          (setCol (renameParcel o) "APN_key" (keyColVals (renameParcel o))) "APN_key"
          [Cell.str apn, Cell.str ""] := by
      show List.flatMap [[Cell.str apn, Cell.str ""]] _ = _
      rw [List.flatMap_cons, List.flatMap_nil, List.append_nil]
    rw [hlm]
    have hbasekey : getCell ["APN", "APN_key"] [Cell.str apn, Cell.str ""] "APN_key" =
        .str "" := rfl
    have hmatch : matchRows ⟨["APN", "APN_key"], [[Cell.str apn, Cell.str ""]]⟩
        (setCol (renameParcel o) "APN_key" (keyColVals (renameParcel o))) "APN_key"
        [Cell.str apn, Cell.str ""] =
        (setCol (renameParcel o) "APN_key" (keyColVals (renameParcel o))).rows.filter
          (fun r2 => getCell (setCol (renameParcel o) "APN_key"
            (keyColVals (renameParcel o))).cols r2 "APN_key" = Cell.str "") := rfl
    have hcount : (matchRows ⟨["APN", "APN_key"], [[Cell.str apn, Cell.str ""]]⟩
        (setCol (renameParcel o) "APN_key" (keyColVals (renameParcel o))) "APN_key"
        [Cell.str apn, Cell.str ""]).length =
        (renameParcel o).rows.countP
          (fun r => apnKeyOfCell (getCell (renameParcel o).cols r "APN") = "") := by
      rw [hmatch]
      have hpw : (setCol (renameParcel o) "APN_key" (keyColVals (renameParcel o))).rows =
          (renameParcel o).rows.map F := hrows
      rw [← List.countP_eq_length_filter, hpw, List.countP_map]
      have hself' : ∀ r ∈ (renameParcel o).rows,
          getCell (setCol (renameParcel o) "APN_key"
            (keyColVals (renameParcel o))).cols (F r) "APN_key" =
            keyCellF (renameParcel o).cols r := hself
      apply List.countP_congr
      intro r hr
      simp only [Function.comp_apply, decide_eq_true_eq]
      rw [hself' r hr]
      simp only [keyCellF, Cell.str.injEq]
    unfold mergeRow
    split
    · rename_i hempty
      have hz : (matchRows ⟨["APN", "APN_key"], [[Cell.str apn, Cell.str ""]]⟩
          (setCol (renameParcel o) "APN_key" (keyColVals (renameParcel o))) "APN_key"
          [Cell.str apn, Cell.str ""]).length = 0 := by
        rw [List.isEmpty_iff] at hempty
        rw [hempty]
        rfl
      rw [hz] at hcount
      simp [← hcount]
    · rename_i hempty
      rw [List.length_map, hcount]
      have hnz : (matchRows ⟨["APN", "APN_key"], [[Cell.str apn, Cell.str ""]]⟩
          (setCol (renameParcel o) "APN_key" (keyColVals (renameParcel o))) "APN_key"
          [Cell.str apn, Cell.str ""]).length ≠ 0 := by
        rw [Ne, List.length_eq_zero, ← List.isEmpty_iff]
        simpa using hempty
      rw [hcount] at hnz
      omega

theorem merge_empty_key_fanout_witness :
    (∀ c ∈ ("--#".data), isWordChar c = false) ∧
    WF (⟨["APN", "W"], [[.str "%%", .str "w1"], [.str " ", .str "w2"], [.str "A1", .str "w3"]]⟩ :
      Table) ∧
    apnKeyOfCell (.str "--#") = "" ∧
    (merge_on_apn ⟨["APN"], [[.str "--#"]]⟩
      (some ⟨["APN", "W"], [[.str "%%", .str "w1"], [.str " ", .str "w2"], [.str "A1", .str "w3"]]⟩)
      "_pw").rows.length = 2 := by
  have hth := merge_empty_key_fanout "--#" (by decide)
    ⟨["APN", "W"], [[.str "%%", .str "w1"], [.str " ", .str "w2"], [.str "A1", .str "w3"]]⟩
    (by decide) "_pw"
  exact ⟨by decide, by decide, hth.1, by rw [hth.2]; decide⟩

/-! ## C2, C3: concrete end-to-end runs -/

/-- The end-to-end scenario's base table (spec §8). -/
def demoTable : Table :=
  ⟨["Parcel", "Address", "City", "State", "Zip"],
    [[.str "12-345", .str "1 Elm St", .str "Springfield", .str "IL", .str "62701"]]⟩

/-- The end-to-end scenario's run: no secondary tables, all three
toggles enabled. -/
def demoRun : Table := runEnrichment demoTable none none true true true

/-- **C2 counterexample.** The end-to-end claim asserts
`confidence_score = min(1, 5/12+0.5+0.1+0.1) = 0.7`; the code computes
`min(len("12-345"), 12)/12 + 0.5 + 0.1 + 0.1 = 1.2`, clipped to `1.0`
(and `min(1, 5/12+0.7)` is `1`, not `0.7`, in any case): the output
score is `1.0`, not `0.7`. -/
theorem demoRun_score_is_not_seven_tenths :
    getCell demoRun.cols (demoRun.rows.getD 0 []) "confidence_score" ≠ .num (7 / 10) := by
  with_unfolding_all decide

/-- **C2 amended.** In the end-to-end scenario the output row has
`APN = "12-345"`, `APN_norm = "12345"`,
`addr_query = "1 Elm St Springfield IL 62701"`, all four GIS, five
OSINT and three social link columns present, and
`confidence_score = 1.0` (the APN term `6/12` plus `0.7` exceeds the
clip at `1.0`). -/
theorem demoRun_output_row :
    demoRun.cols =
      (["APN", "Property Address", "City", "State", "Zip", "County Finder",
        "APN_norm", "addr_query"] ++ gisNames ++ osintNames ++ socialNames) ++
        ["confidence_score"] ∧
    getCell demoRun.cols (demoRun.rows.getD 0 []) "APN" = .str "12-345" ∧
    getCell demoRun.cols (demoRun.rows.getD 0 []) "APN_norm" = .str "12345" ∧
    getCell demoRun.cols (demoRun.rows.getD 0 []) "addr_query" =
      .str "1 Elm St Springfield IL 62701" ∧
    getCell demoRun.cols (demoRun.rows.getD 0 []) "confidence_score" = .num 1 := by
  with_unfolding_all decide

/-- A one-row table whose `APN` cell is missing (`NaN`). -/
def nullApnTable : Table := ⟨["APN"], [[Cell.null]]⟩

/-- A one-row table with no `APN` column at all. -/
def noApnColTable : Table := ⟨["City"], [[.str "Springfield"]]⟩

/-- **C3 counterexample.** The claim says a null APN cell yields
`APN_norm = ""`; in the code `.astype(str)` renders a missing value as
the string `"nan"`, so `APN_norm` is `"nan"`, not `""`. -/
theorem null_apn_norm_is_not_empty :
    getCell (standardizeColumns nullApnTable).cols
      ((standardizeColumns nullApnTable).rows.getD 0 []) "APN_norm" ≠ .str "" := by
  decide

/-- **C3 amended.** Cell values are coerced to strings before any
derived computation, but a null (`NaN`) cell is rendered `"nan"` by the
string coercion, not `""`: a row with a null APN cell gets
`APN_norm = "nan"` and contributes `len("nan")/12 = 3/12` to the
confidence score (0.25 after rounding, all other fields empty), while
only a row whose table lacks the APN column entirely is backfilled with
`""`, gets `APN_norm = ""` and contributes nothing (score 0.1 from its
non-empty City alone). -/
theorem null_vs_missing_apn_coercion :
    getCell (standardizeColumns nullApnTable).cols
      ((standardizeColumns nullApnTable).rows.getD 0 []) "APN_norm" = .str "nan" ∧
    confidence_score (standardizeColumns nullApnTable).cols
      ((standardizeColumns nullApnTable).rows.getD 0 []) = mkRat 1 4 ∧
    getCell (standardizeColumns noApnColTable).cols
      ((standardizeColumns noApnColTable).rows.getD 0 []) "APN_norm" = .str "" ∧
    confidence_score (standardizeColumns noApnColTable).cols
      ((standardizeColumns noApnColTable).rows.getD 0 []) = mkRat 1 10 := by
  with_unfolding_all decide

/-! ## C8: idempotence of the standardization block -/

theorem table_eta (s : Table) : (⟨s.cols, s.rows⟩ : Table) = s := rfl

theorem map_id_of_eq {α : Type _} (l : List α) (g : α → α) (h : ∀ x ∈ l, g x = x) :
    l.map g = l := by
  induction l with
  | nil => rfl
  | cons a t ih =>
    rw [List.map_cons, h a (List.mem_cons_self a t),
      ih fun x hx => h x (List.mem_cons_of_mem a hx)]

theorem getD_eq_getElem {α : Type _} (l : List α) {k : ℕ} (hk : k < l.length) (d : α) :
    l.getD k d = l[k] := by
  rw [List.getD_eq_getElem?_getD, List.getElem?_eq_getElem hk]
  rfl

/-- Every alias-map output is either the input itself or one of the six
canonical targets. -/
theorem canonAlias_cases (c : String) :
    canonAlias c = c ∨ canonAlias c ∈ canonicalCols := by
  unfold canonAlias
  dsimp only
  split_ifs <;> simp [canonicalCols]

theorem canonAlias_of_canonical : ∀ c ∈ canonicalCols, canonAlias c = c := by decide

theorem canonAlias_idem (c : String) : canonAlias (canonAlias c) = canonAlias c := by
  rcases canonAlias_cases c with h | h
  · rw [h]
    exact h
  · exact canonAlias_of_canonical _ h

theorem mapSetCol_cols_cases (t : Table) (name : String) (f : List String → Row → Cell) :
    (mapSetCol t name f).cols = t.cols ∨ (mapSetCol t name f).cols = t.cols ++ [name] := by
  cases h : colIdx t.cols name with
  | some i => rw [mapSetCol_of_some _ h]; exact Or.inl rfl
  | none => rw [mapSetCol_of_none _ h]; exact Or.inr rfl

theorem backfillFold_cols (l : List String) : ∀ (s : Table),
    ∃ extra, (l.foldl backfillOne s).cols = s.cols ++ extra ∧ ∀ c ∈ extra, c ∈ l := by
  induction l with
  | nil => exact fun s => ⟨[], by simp, by simp⟩
  | cons a l ih =>
    intro s
    rw [List.foldl_cons]
    obtain ⟨extra, hcols, hsub⟩ := ih (backfillOne s a)
    by_cases hcon : s.cols.contains a = true
    · have hone : (backfillOne s a).cols = s.cols := by
        rw [backfillOne, if_pos hcon]
      rw [hone] at hcols
      exact ⟨extra, hcols, fun c hc => List.mem_cons_of_mem a (hsub c hc)⟩
    · have hone : (backfillOne s a).cols = s.cols ++ [a] := by
        rw [backfillOne, if_neg hcon]
      rw [hone] at hcols
      refine ⟨a :: extra, ?_, ?_⟩
      · rw [hcols, List.append_assoc]
        rfl
      · intro c hc
        rcases List.mem_cons.mp hc with rfl | hc
        · exact List.mem_cons_self c l
        · exact List.mem_cons_of_mem a (hsub c hc)

/-- Every column label produced by the standardization block is a fixed
point of the alias map. -/
theorem standardize_cols_canonAlias_fixed (t : Table) :
    ∀ c ∈ (standardizeColumns t).cols, canonAlias c = c := by
  intro c hc
  rw [standardizeColumns_eq] at hc
  have hc1 : c ∈ (mapSetCol (backfillCanonical ⟨t.cols.map canonAlias, t.rows⟩)
      "APN_norm" apnNormCell).cols ∨ c = "addr_query" := by
    rcases mapSetCol_cols_cases
        (mapSetCol (backfillCanonical ⟨t.cols.map canonAlias, t.rows⟩) "APN_norm" apnNormCell)
        "addr_query" addrQueryCell with h | h <;> rw [h] at hc
    · exact Or.inl hc
    · rcases List.mem_append.mp hc with h' | h'
      · exact Or.inl h'
      · exact Or.inr (List.mem_singleton.mp h')
  rcases hc1 with hc1 | rfl
  swap
  · decide
  have hc2 : c ∈ (backfillCanonical ⟨t.cols.map canonAlias, t.rows⟩).cols ∨
      c = "APN_norm" := by
    rcases mapSetCol_cols_cases (backfillCanonical ⟨t.cols.map canonAlias, t.rows⟩)
        "APN_norm" apnNormCell with h | h <;> rw [h] at hc1
    · exact Or.inl hc1
    · rcases List.mem_append.mp hc1 with h' | h'
      · exact Or.inl h'
      · exact Or.inr (List.mem_singleton.mp h')
  rcases hc2 with hc2 | rfl
  swap
  · decide
  obtain ⟨extra, hbf, hext⟩ :=
    backfillFold_cols canonicalCols ⟨t.cols.map canonAlias, t.rows⟩
  have hbf' : (backfillCanonical ⟨t.cols.map canonAlias, t.rows⟩).cols =
      t.cols.map canonAlias ++ extra := hbf
  rw [hbf'] at hc2
  rcases List.mem_append.mp hc2 with h' | h'
  · obtain ⟨c0, _, rfl⟩ := List.mem_map.mp h'
    exact canonAlias_idem c0
  · exact canonAlias_of_canonical c (hext c h')

theorem backfillOne_of_mem {s : Table} {a : String} (h : a ∈ s.cols) :
    backfillOne s a = s := by
  rw [backfillOne, if_pos (contains_iff_mem.mpr h)]

theorem backfillFold_id : ∀ (l : List String) {s : Table}, (∀ a ∈ l, a ∈ s.cols) →
    l.foldl backfillOne s = s
  | [], s, _ => rfl
  | a :: l, s, h => by
    rw [List.foldl_cons, backfillOne_of_mem (h a (List.mem_cons_self a l))]
    exact backfillFold_id l fun b hb => h b (List.mem_cons_of_mem a hb)

theorem backfillCanonical_id {s : Table} (h : ∀ a ∈ canonicalCols, a ∈ s.cols) :
    backfillCanonical s = s :=
  backfillFold_id canonicalCols h

theorem standardize_canonical_mem (t : Table) :
    ∀ a ∈ canonicalCols, a ∈ (standardizeColumns t).cols := by
  intro a ha
  rw [standardizeColumns_eq]
  exact mapSetCol_cols_mem _ _ (mapSetCol_cols_mem _ _
    (mem_backfillFold canonicalCols _ a ha))

theorem standardize_WF {t : Table} (hWF : WF t) : WF (standardizeColumns t) := by
  rw [standardizeColumns_eq]
  exact mapSetCol_WF _ _ (mapSetCol_WF _ _ (backfillFold_WF canonicalCols (WF_renamed t hWF)))

theorem apn_norm_mem_standardize_cols (t : Table) :
    "APN_norm" ∈ (standardizeColumns t).cols := by
  rw [standardizeColumns_eq]
  exact mapSetCol_cols_mem _ _
    (self_mem_setCol_cols (backfillCanonical ⟨t.cols.map canonAlias, t.rows⟩) "APN_norm" _)

theorem addr_query_mem_standardize_cols (t : Table) :
    "addr_query" ∈ (standardizeColumns t).cols := by
  rw [standardizeColumns_eq]
  exact self_mem_setCol_cols _ "addr_query" _

theorem mapSetCol_cellD_preserved (t : Table) (name : String) (f : List String → Row → Cell)
    (hWF : WF t) {m : String} (hm : m ≠ name) (d : Cell) {k : ℕ} (hk : k < t.rows.length) :
    getCellD (mapSetCol t name f).cols ((mapSetCol t name f).rows.getD k []) m d =
      getCellD t.cols (t.rows.getD k []) m d := by
  cases h : colIdx t.cols name with
  | some i =>
    rw [mapSetCol_of_some _ h]
    show getCellD t.cols ((t.rows.map (fun r => r.set i (f t.cols r))).getD k []) m d = _
    rw [getD_map _ _ hk _ []]
    exact getCellD_set_ne _ h hm _
  | none =>
    rw [mapSetCol_of_none _ h]
    show getCellD (t.cols ++ [name]) ((t.rows.map (fun r => r ++ [f t.cols r])).getD k []) m d = _
    rw [getD_map _ _ hk _ []]
    exact getCellD_append_other _ hm (hWF _ (getD_mem t.rows hk [])) _

/-- The `APN_norm` value of a row depends only on its `APN` cell. -/
theorem apnNormCell_congr {cols cols' : List String} {r r' : Row}
    (h : getCell cols r "APN" = getCell cols' r' "APN") :
    apnNormCell cols r = apnNormCell cols' r' := by
  unfold apnNormCell
  rw [h]

/-- The `addr_query` value of a row depends only on its four address
cells. -/
theorem addrQueryCell_congr {cols cols' : List String} {r r' : Row}
    (h1 : getCellD cols r "Property Address" (.str "") =
      getCellD cols' r' "Property Address" (.str ""))
    (h2 : getCellD cols r "City" (.str "") = getCellD cols' r' "City" (.str ""))
    (h3 : getCellD cols r "State" (.str "") = getCellD cols' r' "State" (.str ""))
    (h4 : getCellD cols r "Zip" (.str "") = getCellD cols' r' "Zip" (.str "")) :
    addrQueryCell cols r = addrQueryCell cols' r' := by
  unfold addrQueryCell
  rw [h1, h2, h3, h4]

/-- Setting a column to values it already holds is the identity. -/
theorem mapSetCol_eq_self {t : Table} {name : String} {f : List String → Row → Cell}
    (hmem : name ∈ t.cols)
    (hval : ∀ k, k < t.rows.length →
      getCell t.cols (t.rows.getD k []) name = f t.cols (t.rows.getD k [])) :
    mapSetCol t name f = t := by
  cases hi : colIdx t.cols name with
  | none => exact absurd hmem (colIdx_eq_none_iff.mp hi)
  | some i =>
    rw [mapSetCol_of_some _ hi]
    have hrows : t.rows.map (fun r => r.set i (f t.cols r)) = t.rows := by
      apply List.ext_getElem (by simp)
      intro k hk1 hk2
      rw [List.getElem_map]
      have hval' := hval k hk2
      rw [getD_eq_getElem _ hk2 ([] : Row)] at hval'
      simp only [getCell, getCellD_of_some _ hi] at hval'
      rw [← hval']
      exact set_getD_self _ i Cell.null
    rw [hrows]


/-- **C8.** The standardization block is idempotent on well-formed
tables: running it a second time renames nothing (every output label is
a fixed point of the alias map), backfills nothing (all six canonical
columns are present), and recomputes `APN_norm` and `addr_query` to the
values they already hold, so the table is returned unchanged. -/
theorem standardize_idempotent (t : Table) (hWF : WF t) :
    standardizeColumns (standardizeColumns t) = standardizeColumns t := by
  have hWF0 : WF (⟨t.cols.map canonAlias, t.rows⟩ : Table) := WF_renamed t hWF
  have hWFb : WF (backfillCanonical ⟨t.cols.map canonAlias, t.rows⟩) := backfillFold_WF canonicalCols hWF0
  have hWFw : WF (mapSetCol (backfillCanonical ⟨t.cols.map canonAlias, t.rows⟩) "APN_norm" apnNormCell) := mapSetCol_WF _ _ hWFb
  have hlenw : (mapSetCol (backfillCanonical ⟨t.cols.map canonAlias, t.rows⟩) "APN_norm" apnNormCell).rows.length = t.rows.length := by
    rw [mapSetCol_rows_length, backfillCanonical_rows_length]
  have hlenb : (backfillCanonical ⟨t.cols.map canonAlias, t.rows⟩).rows.length = t.rows.length := backfillCanonical_rows_length _
  have hA : ∀ k, k < (standardizeColumns t).rows.length →
      getCell (standardizeColumns t).cols ((standardizeColumns t).rows.getD k []) "APN_norm" =
        apnNormCell (standardizeColumns t).cols ((standardizeColumns t).rows.getD k []) := by
    intro k hk
    rw [standardizeColumns_rows_length] at hk
    have h1 : getCell (standardizeColumns t).cols ((standardizeColumns t).rows.getD k []) "APN_norm" =
        apnNormCell (backfillCanonical ⟨t.cols.map canonAlias, t.rows⟩).cols ((backfillCanonical ⟨t.cols.map canonAlias, t.rows⟩).rows.getD k []) := by
      rw [standardizeColumns_eq,
        mapSetCol_cell_preserved _ "addr_query" addrQueryCell hWFw (by decide)
          (by rw [hlenw]; exact hk)]
      exact mapSetCol_cell_self _ "APN_norm" apnNormCell hWFb (by rw [hlenb]; exact hk)
    have h2 : getCell (standardizeColumns t).cols ((standardizeColumns t).rows.getD k []) "APN" =
        getCell (backfillCanonical ⟨t.cols.map canonAlias, t.rows⟩).cols ((backfillCanonical ⟨t.cols.map canonAlias, t.rows⟩).rows.getD k []) "APN" := by
      rw [standardizeColumns_eq,
        mapSetCol_cell_preserved _ "addr_query" addrQueryCell hWFw (by decide)
          (by rw [hlenw]; exact hk),
        mapSetCol_cell_preserved _ "APN_norm" apnNormCell hWFb (by decide)
          (by rw [hlenb]; exact hk)]
    rw [h1]
    exact apnNormCell_congr h2.symm
  have hQ : ∀ k, k < (standardizeColumns t).rows.length →
      getCell (standardizeColumns t).cols ((standardizeColumns t).rows.getD k []) "addr_query" =
        addrQueryCell (standardizeColumns t).cols ((standardizeColumns t).rows.getD k []) := by
    intro k hk
    rw [standardizeColumns_rows_length] at hk
    have h1 : getCell (standardizeColumns t).cols ((standardizeColumns t).rows.getD k []) "addr_query" =
        addrQueryCell (mapSetCol (backfillCanonical ⟨t.cols.map canonAlias, t.rows⟩) "APN_norm" apnNormCell).cols ((mapSetCol (backfillCanonical ⟨t.cols.map canonAlias, t.rows⟩) "APN_norm" apnNormCell).rows.getD k []) := by
      rw [standardizeColumns_eq]
      exact mapSetCol_cell_self _ "addr_query" addrQueryCell hWFw (by rw [hlenw]; exact hk)
    have hp : ∀ m : String, m ≠ "addr_query" →
        getCellD (standardizeColumns t).cols ((standardizeColumns t).rows.getD k []) m (.str "") =
          getCellD (mapSetCol (backfillCanonical ⟨t.cols.map canonAlias, t.rows⟩) "APN_norm" apnNormCell).cols ((mapSetCol (backfillCanonical ⟨t.cols.map canonAlias, t.rows⟩) "APN_norm" apnNormCell).rows.getD k []) m (.str "") := by
      intro m hm
      rw [standardizeColumns_eq]
      exact mapSetCol_cellD_preserved _ "addr_query" addrQueryCell hWFw hm _
        (by rw [hlenw]; exact hk)
    rw [h1]
    exact addrQueryCell_congr
      (hp "Property Address" (by decide)).symm (hp "City" (by decide)).symm
      (hp "State" (by decide)).symm (hp "Zip" (by decide)).symm
  have hmap : (standardizeColumns t).cols.map canonAlias = (standardizeColumns t).cols :=
    map_id_of_eq _ _ (standardize_cols_canonAlias_fixed t)
  have h6 := standardize_canonical_mem t
  have hmemA := apn_norm_mem_standardize_cols t
  have hmemQ := addr_query_mem_standardize_cols t
  set u := standardizeColumns t with hu
  calc standardizeColumns u
      = mapSetCol (mapSetCol (backfillCanonical ⟨u.cols.map canonAlias, u.rows⟩)
          "APN_norm" apnNormCell) "addr_query" addrQueryCell := standardizeColumns_eq u
    _ = u := by
        rw [hmap]
        rw [table_eta u, backfillCanonical_id h6, mapSetCol_eq_self hmemA hA,
          mapSetCol_eq_self hmemQ hQ]

theorem standardize_idempotent_witness :
    WF (⟨["Parcel", "Town"], [[Cell.str "1-2", Cell.str "X"]]⟩ : Table) ∧
    standardizeColumns (standardizeColumns ⟨["Parcel", "Town"], [[.str "1-2", .str "X"]]⟩) =
      standardizeColumns ⟨["Parcel", "Town"], [[.str "1-2", .str "X"]]⟩ :=
  ⟨by decide, standardize_idempotent _ (by decide)⟩

end SurplusOSINT
